import Mathlib

/-!
Verification of the MIR-lab measure-normalization and alignment pipeline.

The development shallowly embeds the two scripts of the repository:
`Data_Prep_3.py` (downbeat-based note normalization) and
`Data_Merge_Final.py` (measure-level merging and the train/test/val split).

Times and durations are modelled as rationals; the Python floats used by the
source are exact on the dyadic values exercised by the properties below, and
the algebraic relations proved here hold identically in both arithmetics
because both sides of each relation are computed by the same float operations.
Python exceptions are modelled with `Except String`, the raised exception's
class name standing in for the exception value.
-/

namespace MIRLab

/-- Python `round(x, 5)`: rounding to five decimal places, used by
`extract_notes` for stable serialization.  (Python rounds halves to even;
`round` rounds halves up.  The two agree away from exact half-way points at
the fifth decimal, which never arise in the properties below.) -/
def round5 (q : ℚ) : ℚ := (round (q * 100000) : ℤ) / 100000

/-! ### Python `int` parsing and `str.split("/")`, on character lists

`sig_to_duration` does `beats, beat_type = map(int, ts.split("/"))`; the
strings it receives are produced by `f"{int(beats)}/{int(beat_type)}"`, i.e.
canonical decimal integers.  The parser below accepts an optional sign
followed by digits, which matches Python `int` on such canonical strings. -/

/-- Value of a decimal digit character, `none` for a non-digit. -/
def digitVal (c : Char) : Option ℕ :=
  if '0' ≤ c ∧ c ≤ '9' then some (c.toNat - '0'.toNat) else none

/-- Accumulating decimal parser over a character list. -/
def parseNatAux (acc : ℕ) : List Char → Option ℕ
  | [] => some acc
  | c :: cs =>
    match digitVal c with
    | some d => parseNatAux (acc * 10 + d) cs
    | none => none

/-- Parse a nonempty digit string as a natural number. -/
def parseNatChars : List Char → Option ℕ
  | [] => none
  | cs => parseNatAux 0 cs

/-- Python `int(...)` on a canonical decimal string (optional leading sign). -/
def pyIntChars : List Char → Option ℤ
  | [] => none
  | '-' :: cs => (parseNatChars cs).map (fun n => -(n : ℤ))
  | '+' :: cs => (parseNatChars cs).map (fun n => (n : ℤ))
  | cs => (parseNatChars cs).map (fun n => (n : ℤ))

/-- Python `int(s)` for an optional string; `int(None)` raises `TypeError`
and unparsable text raises `ValueError`, both modelled as `none` where the
call sites catch exactly those exceptions. -/
def pyInt : Option String → Option ℤ
  | none => none
  | some s => pyIntChars s.data

/-- Python `s.split("/")` on the character list of `s`. -/
def splitSlash : List Char → List (List Char)
  | [] => [[]]
  | c :: rest =>
    match splitSlash rest with
    | [] => [[c]]
    | g :: gs => if c = '/' then [] :: g :: gs else (c :: g) :: gs

/-! ### `sig_to_duration` (Data_Prep_3.py lines 72-79) -/

/-- The arithmetic core of `sig_to_duration`: `(60 / 120) * beats *
(4 / beat_type)`.  `beat_type = 0` raises `ZeroDivisionError`, which the
bare `except` turns into the default `2.0`. -/
def durOfPair (beats beat_type : ℤ) : ℚ :=
  if beat_type = 0 then 2 else (60 / 120 : ℚ) * beats * (4 / (beat_type : ℚ))

/-- `ts.split("/")` followed by `map(int, ...)` and unpacking into exactly
two values; any failure (`ValueError`/`TypeError`) is caught by the bare
`except` at the call site. -/
def parseSig (s : String) : Option (ℤ × ℤ) :=
  match (splitSlash s.data).map pyIntChars with
  | [some b, some t] => some (b, t)
  | _ => none

/-- `sig_to_duration(ts)` from `extract_notes`: `None` and every parse or
division failure default to `2.0` (the 4/4 duration); otherwise the measure
duration normalized to 120 BPM. -/
def sigToDuration (ts : Option String) : ℚ :=
  match ts with
  | none => 2
  | some s =>
    match parseSig s with
    | none => 2
    | some (b, t) => durOfPair b t

/-! ### `extract_notes` (Data_Prep_3.py lines 58-120)

The MIDI file and annotation file are external inputs: `extract_notes` is
embedded as a function of the downbeat list produced by `load_downbeats`
(which always returns a sorted list containing 0.0), the per-instrument note
lists of the parsed MIDI file, and the signature change points. -/

/-- A note event of the parsed MIDI input: `note.pitch`, `note.start`,
`note.end` (named `onset`/`offset` here, as the code immediately rebinds
them). -/
structure MidiNote where
  pitch : ℕ
  onset : ℚ
  offset : ℚ
deriving DecidableEq

/-- One output row of `extract_notes`.  The `note` column holds
`pretty_midi.note_number_to_name(note.pitch)`, an injective rendering of the
pitch number; the pitch number itself stands in for the name here. -/
structure NoteRec where
  measure : ℕ
  pitch : ℕ
  onset : ℚ
  offset : ℚ
  measure_start : ℚ
  measure_end : ℚ
deriving DecidableEq

/-- `bisect.bisect_right(downbeats, onset)` on the sorted downbeat list:
the number of entries `≤ onset`.  (`load_downbeats` returns `sorted(times)`,
on which Python's binary search coincides with this count.) -/
def bisectRight (l : List ℚ) (x : ℚ) : ℕ :=
  (l.filter (fun d => decide (d ≤ x))).length

/-- `intervals[-1] if intervals else 0.0` where
`intervals = [downbeats[i+1] - downbeats[i] for i in range(len(downbeats)-1)]`. -/
def lastIntervalOf (db : List ℚ) : ℚ :=
  match db.reverse with
  | b :: a :: _ => b - a
  | _ => 0

/-- `end_times = downbeats[1:] + [downbeats[-1] + last_interval]` (for a
nonempty downbeat list; on an empty list `downbeats[-1]` raises
`IndexError`, handled at `extractNotes`). -/
def endTimes (db : List ℚ) : List ℚ :=
  db.tail ++ [db.getLastD 0 + lastIntervalOf db]

/-- The scan of `ts_points` in reverse inside the `sig_map` loop: the first
change point (in descending order) whose measure index is `≤ measure_num`
wins, otherwise `last_sig` is left unchanged. -/
def resolveSig (ts : List (ℤ × String)) (lastSig : String) (measureNum : ℕ) : String :=
  match ts.reverse.find? (fun p => decide ((measureNum : ℤ) ≥ p.1)) with
  | some p => p.2
  | none => lastSig

/-- The signatures assigned to `count` consecutive measures starting at
measure `start`, threading the mutable `last_sig` exactly as the
`for i in range(len(downbeats))` loop does. -/
def sigFrom (ts : List (ℤ × String)) (lastSig : String) (start : ℕ) : ℕ → List String
  | 0 => []
  | count + 1 =>
    let s := resolveSig ts lastSig start
    s :: sigFrom ts s (start + 1) count

/-- The signature strings resolved for measures `1..n` (`last_sig` starts at
`"4/4"`). -/
def sigList (ts : List (ℤ × String)) (n : ℕ) : List String :=
  sigFrom ts "4/4" 1 n

/-- `sig_map` as a duration list: entry `i` is
`sig_map[i+1] = sig_to_duration(last_sig)` for measure `i+1`. -/
def sigDurList (ts : List (ℤ × String)) (n : ℕ) : List ℚ :=
  (sigList ts n).map (fun s => sigToDuration (some s))

/-- `sum(sig_map.get(m, 2.0) for m in range(1, measure_num))`: the prefix sum
of normalized durations of the measures before measure `m`. -/
def measureStartD (durs : List ℚ) (m : ℕ) : ℚ :=
  (durs.take (m - 1)).sum

/-- `measure_start + norm_duration` where
`norm_duration = sig_map.get(idx + 1, 2.0)` for `m = idx + 1`. -/
def measureEndD (durs : List ℚ) (m : ℕ) : ℚ :=
  measureStartD durs m + durs.getD (m - 1) 2

/-- The body of the per-note loop of `extract_notes`: either no record (the
`continue` branches), a record, or a raised `ZeroDivisionError` when the real
measure duration is zero. -/
def processNote (db endTs sigDurs : List ℚ) (nt : MidiNote) :
    Except String (Option NoteRec) :=
  let br := bisectRight db nt.onset
  if br = 0 then .ok none
  else
    let idx := br - 1
    if endTs.length ≤ idx then .ok none
    else
      let realStart := db.getD idx 0
      let realEnd := endTs.getD idx 0
      let realDur := realEnd - realStart
      if realDur = 0 then .error "ZeroDivisionError"
      else
        let normDur := sigDurs.getD idx 2
        let relOnset := (nt.onset - realStart) / realDur
        let relOffset := (nt.offset - realStart) / realDur
        let mStart := measureStartD sigDurs (idx + 1)
        .ok (some
          { measure := idx + 1
            pitch := nt.pitch
            onset := round5 (relOnset * normDur + mStart)
            offset := round5 (relOffset * normDur + mStart)
            measure_start := round5 mStart
            measure_end := round5 (measureEndD sigDurs (idx + 1)) })

/-- The note loop: records accumulate in input order; the first raised
exception aborts the whole call. -/
def processNotes (db endTs sigDurs : List ℚ) : List MidiNote → Except String (List NoteRec)
  | [] => .ok []
  | nt :: rest => do
    let r ← processNote db endTs sigDurs nt
    let rs ← processNotes db endTs sigDurs rest
    match r with
    | none => .ok rs
    | some rec => .ok (rec :: rs)

/-- `extract_notes`: build `end_times` and `sig_map`, process every note of
every instrument, and sort the resulting rows by onset
(`pd.DataFrame(records).sort_values(by='onset')`, modelled as a stable sort
on the record list). -/
def extractNotes (db : List ℚ) (instruments : List (List MidiNote))
    (ts : List (ℤ × String)) : Except String (List NoteRec) :=
  match db with
  | [] => .error "IndexError"
  | _ :: _ =>
    (processNotes db (endTimes db) (sigDurList ts db.length) instruments.flatten).map
      (fun recs => recs.insertionSort (fun a b => a.onset ≤ b.onset))

/-! ### `assign_time_signature` (Data_Prep_3.py lines 122-144) -/

/-- The loop of `get_sig`: starting from `sig = ts_points[0][1]`, walk the
change points in ascending order, updating `sig` while `m >= m0` and breaking
at the first `m < m0`. -/
def getSigLoop (m : ℕ) (sig : String) : List (ℤ × String) → String
  | [] => sig
  | (m0, s) :: rest => if (m : ℤ) ≥ m0 then getSigLoop m s rest else sig

/-- `get_sig(m)`: the last signature change at or before measure `m` under
the loop-with-break semantics above (the empty case is unreachable, guarded
by the caller). -/
def getSig (ts : List (ℤ × String)) (m : ℕ) : String :=
  match ts with
  | [] => "4/4"
  | p :: rest => getSigLoop m p.2 (p :: rest)

/-- `assign_time_signature`, restricted to the `measure` column it reads and
the `time_signature` column it writes: an empty change-point list yields
`None` for every row, otherwise `get_sig` is applied per row. -/
def assignTimeSignature (ts : List (ℤ × String)) (measures : List ℕ) :
    List (Option String) :=
  match ts with
  | [] => measures.map (fun _ => none)
  | _ :: _ => measures.map (fun m => some (getSig ts m))

/-! ### `extract_time_signatures` (Data_Prep_3.py lines 29-55)

Only the slice of the ElementTree interface the function touches is
modelled: per measure element, the `number` attribute
(`measure.attrib.get('number')`, an optional string), the first
`attributes/time` child (`measure.find(...)`, optional), and inside it the
optional `beats` and `beat-type` children, each with optional text
(`elem.text`). -/

/-- A located child element, carrying only its optional text. -/
structure XChild where
  text : Option String
deriving DecidableEq

/-- The `attributes/time` element of a measure: `find('beats')` and
`find('beat-type')` each yield an element or `None`. -/
structure XTime where
  beats : Option XChild
  beat_type : Option XChild
deriving DecidableEq

/-- A `measure` element as `extract_time_signatures` sees it. -/
structure XMeasure where
  number : Option String
  time : Option XTime
deriving DecidableEq

/-- The collection loop of `extract_time_signatures`: for each measure with
both a `number` attribute and a `time` element, read `beats.text` and
`beat-type.text` — a missing `beats` or `beat-type` child makes `.text`
raise `AttributeError`, which nothing catches — then convert all three
values with `int(...)` inside `try`, skipping the measure on
`ValueError`/`TypeError`. -/
def collectTSPoints : List XMeasure → Except String (List (ℤ × String))
  | [] => .ok []
  | meas :: rest =>
    match meas.time, meas.number with
    | some t, some num =>
      match t.beats, t.beat_type with
      | some be, some bt =>
        match pyIntChars num.data, pyInt be.text, pyInt bt.text with
        | some m, some b, some ty =>
          (collectTSPoints rest).map
            (fun pts => (m, toString b ++ "/" ++ toString ty) :: pts)
        | _, _, _ => collectTSPoints rest
      | _, _ => .error "AttributeError"
    | _, _ => collectTSPoints rest

/-- The `unique` dictionary: keep only the first occurrence of each measure
index, preserving insertion order. -/
def firstOccur : List (ℤ × String) → List (ℤ × String)
  | [] => []
  | p :: rest => p :: firstOccur (rest.filter (fun q => decide (q.1 ≠ p.1)))
termination_by l => l.length
decreasing_by
  simp only [List.length_cons]
  exact Nat.lt_succ_of_le (List.length_filter_le _ _)

/-- `extract_time_signatures`: collect the points, deduplicate by measure
index, and return `sorted(unique.items())` (keys are distinct, so Python's
tuple sort orders by measure index). -/
def extractTimeSignatures (measures : List XMeasure) :
    Except String (List (ℤ × String)) :=
  (collectTSPoints measures).map
    (fun pts => (firstOccur pts).insertionSort (fun a b => a.1 ≤ b.1))

/-! ### `merge_perf_pure` (Data_Merge_Final.py lines 81-123)

The two CSV files are external inputs; the function is embedded over the two
row tables.  `json.dumps` of the feature tuples is modelled by keeping the
tuples themselves. -/

/-- A row of a per-file note table, as read back from the CSV written by
`extract_notes`.  The `note` column is the pitch-name string. -/
structure Row where
  measure : ℕ
  note : String
  onset : ℚ
  offset : ℚ
  measure_start : ℚ
  measure_end : ℚ
deriving DecidableEq

/-- A merged per-measure record: `x` the performance tuples
`(note, rel_onset, duration, measure_dur)`, `y` the score tuples
`(note, rel_onset, rel_offset)`. -/
structure MergeRec where
  measure : ℕ
  x : List (String × ℚ × ℚ × ℚ)
  y : List (String × ℚ × ℚ)
deriving DecidableEq

/-- `sorted(set(perf_df['measure']).intersection(pure_df['measure']))`. -/
def commonMeasures (perf pure : List Row) : List ℕ :=
  (((perf.map Row.measure).dedup).filter
      (fun m => decide (m ∈ pure.map Row.measure))).insertionSort (fun a b => a ≤ b)

/-- The body of the per-measure loop of `merge_perf_pure`: the normalizing
frame is the first performance row of the measure (`.iloc[0]`, never out of
bounds for a measure drawn from the intersection; the default `0` of
`headD` is unreachable there). -/
def mkMergeRec (perf pure : List Row) (m : ℕ) : MergeRec :=
  let perfSec := perf.filter (fun r => decide (r.measure = m))
  let pureSec := pure.filter (fun r => decide (r.measure = m))
  let mStart := ((perfSec.head?).map Row.measure_start).getD 0
  let mEnd := ((perfSec.head?).map Row.measure_end).getD 0
  let mDur := mEnd - mStart
  { measure := m
    x := perfSec.map (fun r => (r.note, r.onset - mStart, r.offset - r.onset, mDur))
    y := pureSec.map (fun r => (r.note, r.onset - mStart, r.offset - mStart)) }

/-- `merge_perf_pure`, given that the sibling score table was found (the
missing-file branch returns an empty frame before any of this runs). -/
def mergePerfPure (perf pure : List Row) : List MergeRec :=
  (commonMeasures perf pure).map (mkMergeRec perf pure)

/-! ### The train/test/val piece split (Data_Merge_Final.py lines 29-60)

`random.shuffle` is an opaque seeded permutation: the split is embedded as a
function of the already-shuffled piece list.  `os.path.normpath` is a
library function of the path string; it enters only through the membership
test `os.path.normpath(p) not in normalized_forced`, so the split is
parametrized by it. -/

/-- The piece-level split: filter the forced pieces out of the shuffled
list, then take `remaining[:n_train]` as train,
`force_test_pieces + remaining[n_train:n_train+n_test]` as test, and
`remaining[n_train+n_test:]` as validation. -/
def splitPieces (normpath : String → String) (shuffled force : List String)
    (nTrain nTest : ℕ) : List String × List String × List String :=
  let normalizedForced := force.map normpath
  let remaining := shuffled.filter (fun p => decide (normpath p ∉ normalizedForced))
  (remaining.take nTrain,
   force ++ (remaining.drop nTrain).take nTest,
   remaining.drop (nTrain + nTest))


/-! ## Shared lemmas -/

/-- A successfully parsed signature string resolves through the arithmetic
core of `sig_to_duration`. -/
theorem sigToDuration_parse (s : String) (b t : ℤ) (h : parseSig s = some (b, t)) :
    sigToDuration (some s) = durOfPair b t := by
  simp [sigToDuration, h]

/-- The default signature `"4/4"` resolves to the duration `2.0`. -/
theorem sigToDuration_44 : sigToDuration (some "4/4") = 2 := by
  rw [sigToDuration_parse "4/4" 4 4 rfl]; norm_num [durOfPair]

/-- When every change point lies strictly after `start`, the reverse scan
finds nothing and `last_sig` is returned unchanged. -/
theorem resolveSig_of_precede (ts : List (ℤ × String)) (sig : String) (start : ℕ)
    (h : ∀ p ∈ ts, (start : ℤ) < p.1) : resolveSig ts sig start = sig := by
  rw [resolveSig]
  have hnone : ts.reverse.find? (fun p => decide ((start : ℤ) ≥ p.1)) = none :=
    List.find?_eq_none.mpr (fun p hp => by
      simp only [decide_eq_true_eq, ge_iff_le, not_le]
      exact h p (List.mem_reverse.mp hp))
  rw [hnone]

/-- If measure `start + i` still precedes every change point, the carried
`last_sig` reaches position `i` of the signature assignment unchanged. -/
theorem sigFrom_of_precede (ts : List (ℤ × String)) (k : ℕ) :
    ∀ (i start : ℕ) (sig : String), i < k →
      (∀ p ∈ ts, ((start : ℤ) + i) < p.1) →
      (sigFrom ts sig start k).getD i "" = sig := by
  induction k with
  | zero => intro i start sig hi; omega
  | succ k ih =>
    intro i start sig hi h
    have hres : resolveSig ts sig start = sig :=
      resolveSig_of_precede ts sig start
        (fun p hp => lt_of_le_of_lt (by omega) (h p hp))
    rw [sigFrom, hres]
    cases i with
    | zero => rfl
    | succ j =>
      show (sigFrom ts sig (start + 1) k).getD j "" = sig
      exact ih j (start + 1) sig (by omega)
        (fun p hp => by push_cast; push_cast at h; linarith [h p hp])

/-- The signature assignment covers exactly the requested measures. -/
theorem sigFrom_length (ts : List (ℤ × String)) (k : ℕ) :
    ∀ (start : ℕ) (sig : String), (sigFrom ts sig start k).length = k := by
  induction k with
  | zero => intro start sig; rfl
  | succ k ih => intro start sig; rw [sigFrom]; simp [ih]

/-- If every downbeat lies strictly after the onset, the bisection index
underflows (`bisect_right` returns 0). -/
theorem bisectRight_eq_zero (db : List ℚ) (x : ℚ) (h : ∀ d ∈ db, x < d) :
    bisectRight db x = 0 := by
  rw [bisectRight, List.filter_eq_nil_iff.mpr (fun d hd => by
    simpa using not_le.mpr (h d hd))]
  rfl

/-- If every downbeat is at or before the onset, the bisection lands past the
last downbeat. -/
theorem bisectRight_eq_length (db : List ℚ) (x : ℚ) (h : ∀ d ∈ db, d ≤ x) :
    bisectRight db x = db.length := by
  rw [bisectRight, List.filter_eq_self.mpr (fun d hd => by simpa using h d hd)]

/-- A note the loop body skips contributes nothing to the record list. -/
theorem processNotes_skip (db endTs sigDurs : List ℚ) (nt : MidiNote)
    (rest : List MidiNote) (h : processNote db endTs sigDurs nt = .ok none) :
    processNotes db endTs sigDurs (nt :: rest) = processNotes db endTs sigDurs rest := by
  rw [processNotes, h]
  cases hr : processNotes db endTs sigDurs rest <;>
    simp [hr, bind, Except.bind]

/-- An exception in the loop body aborts the whole note loop. -/
theorem processNotes_error (db endTs sigDurs : List ℚ) (nt : MidiNote)
    (rest : List MidiNote) (e : String)
    (h : processNote db endTs sigDurs nt = .error e) :
    processNotes db endTs sigDurs (nt :: rest) = .error e := by
  rw [processNotes, h]
  rfl

/-- A single emitted note yields a one-row record list. -/
theorem processNotes_single (db endTs sigDurs : List ℚ) (nt : MidiNote) (r : NoteRec)
    (h : processNote db endTs sigDurs nt = .ok (some r)) :
    processNotes db endTs sigDurs [nt] = .ok [r] := by
  rw [processNotes, h]
  rfl

/-- Unfolding of `extractNotes` on a nonempty downbeat list. -/
theorem extractNotes_ne_nil (db : List ℚ) (insts : List (List MidiNote))
    (ts : List (ℤ × String)) (h : db ≠ []) :
    extractNotes db insts ts =
      (processNotes db (endTimes db) (sigDurList ts db.length) insts.flatten).map
        (fun recs => recs.insertionSort (fun a b => a.onset ≤ b.onset)) := by
  cases db with
  | nil => exact absurd rfl h
  | cons d0 ds => rfl

/-- On a nonempty list the fallback of `getLastD` is irrelevant. -/
theorem getLastD_irrel (a : ℚ) (l : List ℚ) (d d' : ℚ) :
    (a :: l).getLastD d = (a :: l).getLastD d' := by
  rw [List.getLastD_eq_getLast?, List.getLastD_eq_getLast?,
    List.getLast?_eq_getLast (a :: l) (List.cons_ne_nil a l)]
  rfl

/-- Indexing a nonempty list at its last position yields its last element. -/
theorem getD_length_cons (ds : List ℚ) (d0 : ℚ) :
    (d0 :: ds).getD ds.length 0 = (d0 :: ds).getLastD 0 := by
  induction ds generalizing d0 with
  | nil => rfl
  | cons a l ih =>
    show (d0 :: a :: l).getD (l.length + 1) 0 = (d0 :: a :: l).getLastD 0
    rw [List.getD_cons_succ]
    rw [ih a]
    rw [show (d0 :: a :: l).getLastD 0 = (a :: l).getLastD d0 by rfl]
    exact (getLastD_irrel a l 0 d0).symm

/-- Indexing just past an appended prefix yields the appended element. -/
theorem getD_append_singleton (l : List ℚ) (x : ℚ) :
    (l ++ [x]).getD l.length 0 = x := by
  rw [List.getD_eq_getElem?_getD, List.getElem?_append_right (le_refl _)]
  simp

/-- When every `time` element of the document carries both a `beats` and a
`beat-type` child, the collection loop of `extract_time_signatures` never
raises. -/
theorem collectTSPoints_ok (measures : List XMeasure)
    (h : ∀ meas ∈ measures, ∀ t, meas.time = some t →
      t.beats ≠ none ∧ t.beat_type ≠ none) :
    ∃ pts, collectTSPoints measures = .ok pts := by
  induction measures with
  | nil => exact ⟨[], rfl⟩
  | cons meas rest ih =>
    obtain ⟨pts, hok⟩ := ih (fun m hm => h m (List.mem_cons_of_mem _ hm))
    cases ht : meas.time with
    | none => exact ⟨pts, by simp only [collectTSPoints, ht]; exact hok⟩
    | some t =>
      cases hnum : meas.number with
      | none => exact ⟨pts, by simp only [collectTSPoints, ht, hnum]; exact hok⟩
      | some num =>
        obtain ⟨hbe, hbt⟩ := h meas (List.mem_cons_self _ _) t ht
        obtain ⟨be, hbe'⟩ := Option.ne_none_iff_exists'.mp hbe
        obtain ⟨bt, hbt'⟩ := Option.ne_none_iff_exists'.mp hbt
        cases hm : pyIntChars num.data with
        | none =>
          exact ⟨pts, by
            simp only [collectTSPoints, ht, hnum, hbe', hbt', hm]; exact hok⟩
        | some mval =>
          cases hb : pyInt be.text with
          | none =>
            exact ⟨pts, by
              simp only [collectTSPoints, ht, hnum, hbe', hbt', hm, hb]; exact hok⟩
          | some bval =>
            cases hy : pyInt bt.text with
            | none =>
              exact ⟨pts, by
                simp only [collectTSPoints, ht, hnum, hbe', hbt', hm, hb, hy]
                exact hok⟩
            | some yval =>
              refine ⟨(mval, toString bval ++ "/" ++ toString yval) :: pts, ?_⟩
              simp only [collectTSPoints, ht, hnum, hbe', hbt', hm, hb, hy, hok,
                Except.map]

/-! ## Claim theorems -/

/-- C1 (counterexample): a note whose onset (7) lies at/after the synthetic
final boundary (`end_times` of `[0, 2, 4]` is `[2, 4, 6]`, so the boundary is
6) is NOT dropped: `extract_notes` emits a record for it in the last measure.
The claim asserts such notes are dropped, which is false — the guard
`idx >= len(end_times)` can never fire because `end_times` has exactly one
entry per downbeat. -/
theorem extractNotes_pastFinalBoundary_emits :
    endTimes [0, 2, 4] = [2, 4, 6] ∧ (6 : ℚ) ≤ 7 ∧
    extractNotes [0, 2, 4] [[⟨60, 7, 8⟩]] [] =
      .ok [{ measure := 3, pitch := 60, onset := 7, offset := 8,
             measure_start := 4, measure_end := 6 }] := by
  refine ⟨by norm_num [endTimes, lastIntervalOf, List.getLastD], by norm_num, ?_⟩
  norm_num [extractNotes, processNotes, processNote, bisectRight, endTimes, lastIntervalOf,
    sigDurList, sigList, sigFrom, resolveSig, sigToDuration,
    show parseSig "4/4" = some (4, 4) from rfl, durOfPair,
    measureStartD, measureEndD, round5, round_eq, List.filter, List.find?,
    List.insertionSort, List.orderedInsert, Except.map, bind, Except.bind]

/-- C1 (amended): `extract_notes` silently drops a note exactly when no
downbeat is `≤` its onset (the bisection underflows): prepending such a note
to the input leaves the output unchanged.  A note whose onset is at/after
every downbeat — in particular at/after the synthetic final boundary — is
NOT dropped: it is emitted in the final measure (provided the final real
duration is nonzero). -/
theorem extractNotes_drop_policy :
    (∀ (d0 : ℚ) (ds : List ℚ) (pitch : ℕ) (onset offset : ℚ)
        (insts : List (List MidiNote)) (ts : List (ℤ × String)),
        (∀ d ∈ d0 :: ds, onset < d) →
        extractNotes (d0 :: ds) ([⟨pitch, onset, offset⟩] :: insts) ts =
          extractNotes (d0 :: ds) insts ts) ∧
    (∀ (d0 : ℚ) (ds : List ℚ) (pitch : ℕ) (onset offset : ℚ)
        (ts : List (ℤ × String)),
        (∀ d ∈ d0 :: ds, d ≤ onset) → lastIntervalOf (d0 :: ds) ≠ 0 →
        (extractNotes (d0 :: ds) [[⟨pitch, onset, offset⟩]] ts).map
            (List.map NoteRec.measure) = .ok [(d0 :: ds).length]) := by
  constructor
  · intro d0 ds pitch onset offset insts ts h
    have hb : bisectRight (d0 :: ds) onset = 0 := bisectRight_eq_zero _ _ h
    have hskip : processNote (d0 :: ds) (endTimes (d0 :: ds))
        (sigDurList ts (d0 :: ds).length) ⟨pitch, onset, offset⟩ = .ok none := by
      rw [processNote]
      simp [hb]
    rw [extractNotes_ne_nil _ _ _ (List.cons_ne_nil _ _),
      extractNotes_ne_nil _ _ _ (List.cons_ne_nil _ _)]
    rw [List.flatten_cons]
    rw [show ([⟨pitch, onset, offset⟩] : List MidiNote) ++ insts.flatten =
      ⟨pitch, onset, offset⟩ :: insts.flatten from rfl]
    rw [processNotes_skip _ _ _ _ _ hskip]
  · intro d0 ds pitch onset offset ts hle hlast
    set db := d0 :: ds with hdb
    have hn : db.length = ds.length + 1 := rfl
    have hb : bisectRight db onset = ds.length + 1 := by
      rw [bisectRight_eq_length db onset hle, hn]
    have hlenE : (endTimes db).length = ds.length + 1 := by
      simp [endTimes, hdb]
    have hstart : db.getD ds.length 0 = db.getLastD 0 := getD_length_cons ds d0
    have hend : (endTimes db).getD ds.length 0 = db.getLastD 0 + lastIntervalOf db := by
      rw [endTimes]
      rw [show db.tail = ds from rfl]
      exact getD_append_singleton ds _
    have hdur : (endTimes db).getD ds.length 0 - db.getD ds.length 0 =
        lastIntervalOf db := by
      rw [hstart, hend]; ring
    have hproc : processNote db (endTimes db) (sigDurList ts db.length)
        ⟨pitch, onset, offset⟩ = .ok (some
          { measure := ds.length + 1
            pitch := pitch
            onset := round5 (((onset - db.getD ds.length 0) /
                ((endTimes db).getD ds.length 0 - db.getD ds.length 0)) *
                (sigDurList ts db.length).getD ds.length 2 +
                measureStartD (sigDurList ts db.length) (ds.length + 1))
            offset := round5 (((offset - db.getD ds.length 0) /
                ((endTimes db).getD ds.length 0 - db.getD ds.length 0)) *
                (sigDurList ts db.length).getD ds.length 2 +
                measureStartD (sigDurList ts db.length) (ds.length + 1))
            measure_start := round5 (measureStartD (sigDurList ts db.length) (ds.length + 1))
            measure_end := round5 (measureEndD (sigDurList ts db.length) (ds.length + 1)) }) := by
      rw [processNote]
      simp only [hb, hlenE]
      rw [if_neg (by omega)]
      rw [if_neg (by omega)]
      rw [if_neg (by rw [Nat.add_sub_cancel, hdur]; exact hlast)]
      simp [Nat.add_sub_cancel]
    rw [extractNotes_ne_nil _ _ _ (List.cons_ne_nil _ _)]
    rw [show ([[⟨pitch, onset, offset⟩]] : List (List MidiNote)).flatten =
      [⟨pitch, onset, offset⟩] from by simp]
    rw [processNotes_single _ _ _ _ _ hproc]
    rfl

/-- C1 (witness): both drop-policy branches at concrete inputs: a note before
every downbeat changes nothing; a note past every downbeat lands in the last
measure. -/
theorem extractNotes_drop_policy_witness :
    extractNotes [1, 2] [[⟨60, 0, 1⟩]] [] = extractNotes [1, 2] [] [] ∧
    (extractNotes [0, 2] [[⟨60, 5, 6⟩]] []).map (List.map NoteRec.measure) =
      .ok [2] :=
  ⟨extractNotes_drop_policy.1 1 [2] 60 0 1 [] [] (by norm_num),
   extractNotes_drop_policy.2 0 [2] 60 5 6 [] (by norm_num)
     (by norm_num [lastIntervalOf])⟩

/-- C2 (counterexample): for a measure (1) preceding the only change point
(measure 3, signature 3/4), `assign_time_signature` assigns the first change
point's signature `"3/4"`, not the claimed `"4/4"`; and with an empty
change-point list it assigns `None`, not `"4/4"`. -/
theorem assignTimeSignature_default_counterexample :
    assignTimeSignature [(3, "3/4")] [1] = [some "3/4"] ∧
    assignTimeSignature [] [1] = [none] ∧
    some "3/4" ≠ some "4/4" ∧ (none : Option String) ≠ some "4/4" :=
  ⟨rfl, rfl, by decide, by decide⟩

/-- C2 (amended): in `extract_notes`, a measure preceding every change point
resolves to the default signature `"4/4"` (normalized duration 2.0) — also
when the change-point list is empty.  `assign_time_signature`, by contrast,
assigns the FIRST change point's signature to measures preceding all change
points, and assigns `None` (not `"4/4"`) to every measure when the
change-point list is empty. -/
theorem timeSignature_default_resolution :
    (∀ (ts : List (ℤ × String)) (n i : ℕ), i < n →
        (∀ p ∈ ts, ((i : ℤ) + 1) < p.1) →
        (sigList ts n).getD i "" = "4/4" ∧ (sigDurList ts n).getD i 2 = 2) ∧
    (∀ measures : List ℕ,
        assignTimeSignature [] measures = measures.map (fun _ => none)) ∧
    (∀ (m0 : ℤ) (s : String) (rest : List (ℤ × String)) (m : ℕ),
        (m : ℤ) < m0 → getSig ((m0, s) :: rest) m = s) := by
  refine ⟨?_, fun measures => rfl, ?_⟩
  · intro ts n i hi h
    have hsig : (sigList ts n).getD i "" = "4/4" :=
      sigFrom_of_precede ts n i 1 "4/4" hi
        (fun p hp => by have := h p hp; push_cast at this ⊢; linarith)
    refine ⟨hsig, ?_⟩
    have hlen : i < (sigList ts n).length := by
      rw [sigList, sigFrom_length]; exact hi
    have hgetElem : (sigList ts n)[i] = "4/4" := by
      rw [← hsig, List.getD_eq_getElem?_getD, List.getElem?_eq_getElem hlen]; rfl
    rw [sigDurList, List.getD_eq_getElem?_getD, List.getElem?_map,
      List.getElem?_eq_getElem hlen, hgetElem]
    simpa using sigToDuration_44
  · intro m0 s rest m hm
    rw [getSig, getSigLoop, if_neg (by exact_mod_cast not_le.mpr hm)]

/-- C2 (witness): the three amended branches at concrete inputs. -/
theorem timeSignature_default_resolution_witness :
    ((sigList [(3, "3/4")] 2).getD 0 "" = "4/4" ∧
      (sigDurList [(3, "3/4")] 2).getD 0 2 = 2) ∧
    assignTimeSignature [] [1] = [(none : Option String)] ∧
    getSig [((3 : ℤ), "3/4")] 1 = "3/4" :=
  ⟨timeSignature_default_resolution.1 [(3, "3/4")] 2 0 (by norm_num) (by decide),
   timeSignature_default_resolution.2.1 [1],
   timeSignature_default_resolution.2.2 3 "3/4" [] 1 (by norm_num)⟩

/-- C3 (counterexample): a document whose second measure has a `time` element
lacking the `beats` child makes `extract_time_signatures` raise
`AttributeError` (from `time_elem.find('beats').text` on `None`), losing the
change point of the well-formed first measure, contrary to the claim that
only the malformed measure is skipped. -/
theorem extractTimeSignatures_missing_child_raises :
    extractTimeSignatures
        [⟨some "1", some ⟨some ⟨some "4"⟩, some ⟨some "4"⟩⟩⟩,
         ⟨some "2", some ⟨none, some ⟨some "3"⟩⟩⟩] =
      .error "AttributeError" ∧
    (Except.error "AttributeError" : Except String (List (ℤ × String))) ≠
      .ok [(1, "4/4")] := by
  exact ⟨rfl, by simp⟩

/-- C3 (amended): `extract_time_signatures` skips a measure non-fatally only
when the failure is an integer-conversion failure (unparsable or missing
text) or a missing `number`/`time`; in those cases the surviving change
points are still returned and the result never raises when every `time`
element has both children.  A `time` element lacking a `beats` or
`beat-type` child, by contrast, raises (previous theorem). -/
theorem extractTimeSignatures_skip_policy :
    (∀ (meas : XMeasure) (rest : List XMeasure) (num : String) (t : XTime)
        (be bt : XChild),
        meas.number = some num → meas.time = some t →
        t.beats = some be → t.beat_type = some bt →
        (pyIntChars num.data = none ∨ pyInt be.text = none ∨ pyInt bt.text = none) →
        extractTimeSignatures (meas :: rest) = extractTimeSignatures rest) ∧
    (∀ (meas : XMeasure) (rest : List XMeasure),
        (meas.time = none ∨ meas.number = none) →
        extractTimeSignatures (meas :: rest) = extractTimeSignatures rest) ∧
    (∀ measures : List XMeasure,
        (∀ meas ∈ measures, ∀ t, meas.time = some t →
          t.beats ≠ none ∧ t.beat_type ≠ none) →
        ∃ pts, extractTimeSignatures measures = .ok pts) := by
  refine ⟨?_, ?_, ?_⟩
  · intro meas rest num t be bt hnum ht hbe hbt hfail
    have hskip : collectTSPoints (meas :: rest) = collectTSPoints rest := by
      rcases hfail with h | h | h
      · simp only [collectTSPoints, ht, hnum, hbe, hbt, h]
      · simp only [collectTSPoints, ht, hnum, hbe, hbt, h]
        cases pyIntChars num.data <;> rfl
      · simp only [collectTSPoints, ht, hnum, hbe, hbt, h]
        cases pyIntChars num.data <;> cases pyInt be.text <;> rfl
    rw [extractTimeSignatures, extractTimeSignatures, hskip]
  · intro meas rest hmiss
    have hskip : collectTSPoints (meas :: rest) = collectTSPoints rest := by
      rcases hmiss with h | h
      · simp only [collectTSPoints, h]
      · cases ht : meas.time with
        | none => simp only [collectTSPoints, ht]
        | some t => simp only [collectTSPoints, ht, h]
    rw [extractTimeSignatures, extractTimeSignatures, hskip]
  · intro measures h
    obtain ⟨pts, hok⟩ := collectTSPoints_ok measures h
    exact ⟨_, by rw [extractTimeSignatures, hok]; rfl⟩

/-- C3 (witness): the three skip-policy branches at concrete documents: an
unparsable measure number is skipped alone, a measure without a `number`
attribute is skipped alone, and a fully well-formed document returns
change points. -/
theorem extractTimeSignatures_skip_policy_witness :
    (extractTimeSignatures
        [⟨some "x", some ⟨some ⟨some "4"⟩, some ⟨some "4"⟩⟩⟩,
         ⟨some "1", some ⟨some ⟨some "3"⟩, some ⟨some "4"⟩⟩⟩] =
      extractTimeSignatures [⟨some "1", some ⟨some ⟨some "3"⟩, some ⟨some "4"⟩⟩⟩]) ∧
    (extractTimeSignatures
        [⟨none, some ⟨some ⟨some "4"⟩, some ⟨some "4"⟩⟩⟩] =
      extractTimeSignatures []) ∧
    (∃ pts, extractTimeSignatures
        [⟨some "1", some ⟨some ⟨some "3"⟩, some ⟨some "4"⟩⟩⟩] = .ok pts) := by
  refine ⟨extractTimeSignatures_skip_policy.1
      ⟨some "x", some ⟨some ⟨some "4"⟩, some ⟨some "4"⟩⟩⟩ _ "x"
      ⟨some ⟨some "4"⟩, some ⟨some "4"⟩⟩ ⟨some "4"⟩ ⟨some "4"⟩ rfl rfl rfl rfl
      (Or.inl rfl), ?_, ?_⟩
  · exact extractTimeSignatures_skip_policy.2.1
      ⟨none, some ⟨some ⟨some "4"⟩, some ⟨some "4"⟩⟩⟩ [] (Or.inr rfl)
  · exact extractTimeSignatures_skip_policy.2.2
      [⟨some "1", some ⟨some ⟨some "3"⟩, some ⟨some "4"⟩⟩⟩]
      (by intro meas hm t ht
          simp only [List.mem_singleton] at hm
          subst hm
          cases ht
          exact ⟨by simp, by simp⟩)

/-- C4: the round-trip scenario: downbeats `[0, 2, 4]`, uniform 4/4 score
(normalized duration 2.0 per measure), one note with onset 2.5 s and offset
3.0 s: `extract_notes` assigns measure 2 and emits normalized onset 2.5,
offset 3.0, measure_start 2.0, measure_end 4.0. -/
theorem extractNotes_roundtrip_scenario :
    extractNotes [0, 2, 4] [[⟨60, 5/2, 3⟩]] [(1, "4/4")] =
      .ok [{ measure := 2, pitch := 60, onset := 5/2, offset := 3,
             measure_start := 2, measure_end := 4 }] := by
  norm_num [extractNotes, processNotes, processNote, bisectRight, endTimes, lastIntervalOf,
    sigDurList, sigList, sigFrom, resolveSig, sigToDuration,
    show parseSig "4/4" = some (4, 4) from rfl, durOfPair,
    measureStartD, measureEndD, round5, round_eq, List.filter, List.find?,
    List.insertionSort, List.orderedInsert, Except.map, bind, Except.bind]

/-- C5: `merge_perf_pure` emits exactly one record per measure index in the
intersection of the two tables and none for a measure present in only one of
them; in particular, performance measures `{1, 2, 3, 5}` against score
measures `{1, 3, 4}` yield exactly measures `[1, 3]`. -/
theorem mergePerfPure_measure_intersection (perf pure : List Row) (m : ℕ) :
    ((mergePerfPure perf pure).map MergeRec.measure).count m =
      (if m ∈ perf.map Row.measure ∧ m ∈ pure.map Row.measure then 1 else 0) ∧
    (mergePerfPure
        [⟨1, "a", 0, 0, 0, 0⟩, ⟨2, "a", 0, 0, 0, 0⟩, ⟨3, "a", 0, 0, 0, 0⟩,
         ⟨5, "a", 0, 0, 0, 0⟩]
        [⟨1, "b", 0, 0, 0, 0⟩, ⟨3, "b", 0, 0, 0, 0⟩, ⟨4, "b", 0, 0, 0, 0⟩]).map
        MergeRec.measure = [1, 3] := by
  constructor
  · have hmap : (mergePerfPure perf pure).map MergeRec.measure =
        commonMeasures perf pure := by
      rw [mergePerfPure, List.map_map]
      have : (MergeRec.measure ∘ mkMergeRec perf pure) = id := by
        funext m'; simp [mkMergeRec]
      rw [this, List.map_id]
    rw [hmap, commonMeasures]
    have hperm := List.perm_insertionSort (fun a b => a ≤ b)
      (((perf.map Row.measure).dedup).filter
        (fun m' => decide (m' ∈ pure.map Row.measure)))
    rw [hperm.count_eq]
    have hnodup : (((perf.map Row.measure).dedup).filter
        (fun m' => decide (m' ∈ pure.map Row.measure))).Nodup :=
      (List.nodup_dedup _).filter _
    by_cases hmem : m ∈ perf.map Row.measure ∧ m ∈ pure.map Row.measure
    · rw [if_pos hmem]
      exact List.count_eq_one_of_mem hnodup
        (List.mem_filter.mpr ⟨(List.mem_dedup).mpr hmem.1, by simp [hmem.2]⟩)
    · rw [if_neg hmem]
      refine List.count_eq_zero_of_not_mem (fun hc => hmem ?_)
      have h1 := List.mem_filter.mp hc
      exact ⟨(List.mem_dedup).mp h1.1, by simpa using h1.2⟩
  · rfl

/-- C6: for every record of a merge, with the first performance row of the
record's measure providing the `measure_start`/`measure_end` frame, the `x`
list is exactly the per-note performance tuples
`(pitch, onset − measure_start, offset − onset, measure_end − measure_start)`
and the `y` list the score tuples
`(pitch, onset − measure_start, offset − measure_start)`, in table row
order. -/
theorem mergePerfPure_feature_tuples (perf pure : List Row) (rec : MergeRec)
    (perfSec pureSec : List Row) (mStart mEnd : ℚ)
    (h : rec ∈ mergePerfPure perf pure)
    (hperf : perfSec = perf.filter (fun r => decide (r.measure = rec.measure)))
    (hpure : pureSec = pure.filter (fun r => decide (r.measure = rec.measure)))
    (hms : mStart = ((perfSec.head?).map Row.measure_start).getD 0)
    (hme : mEnd = ((perfSec.head?).map Row.measure_end).getD 0) :
    rec.x = perfSec.map
        (fun r => (r.note, r.onset - mStart, r.offset - r.onset, mEnd - mStart)) ∧
    rec.y = pureSec.map (fun r => (r.note, r.onset - mStart, r.offset - mStart)) := by
  obtain ⟨m, hm, hrec⟩ := List.mem_map.mp h
  subst hrec
  subst hperf hpure hms hme
  simp [mkMergeRec]

/-- C6 (witness): the tuple shapes at a concrete one-measure pair of
tables. -/
theorem mergePerfPure_feature_tuples_witness :
    (mkMergeRec [⟨1, "C4", 0, 0, 0, 0⟩] [⟨1, "D4", 0, 0, 0, 0⟩] 1).x =
      [("C4", 0, 0, 0)] ∧
    (mkMergeRec [⟨1, "C4", 0, 0, 0, 0⟩] [⟨1, "D4", 0, 0, 0, 0⟩] 1).y =
      [("D4", 0, 0)] := by
  have h := mergePerfPure_feature_tuples [⟨1, "C4", 0, 0, 0, 0⟩] [⟨1, "D4", 0, 0, 0, 0⟩]
    (mkMergeRec [⟨1, "C4", 0, 0, 0, 0⟩] [⟨1, "D4", 0, 0, 0, 0⟩] 1)
    [⟨1, "C4", 0, 0, 0, 0⟩] [⟨1, "D4", 0, 0, 0, 0⟩] 0 0
    (show _ ∈ [mkMergeRec [⟨1, "C4", 0, 0, 0, 0⟩] [⟨1, "D4", 0, 0, 0, 0⟩] 1] from
      List.mem_singleton.mpr rfl)
    rfl rfl rfl rfl
  simpa using h

/-- C7: for every duration table and every in-range measure `m + 1`, the
emitted (rounded) `measure_end` of measure `m + 1` equals the emitted
`measure_start` of measure `m + 2` (they are equal even before rounding);
when every resolved duration is positive, the prefix sums are strictly
increasing. -/
theorem measureSpan_prefix_sums (durs : List ℚ) (m : ℕ) (hm : m < durs.length) :
    measureEndD durs (m + 1) = measureStartD durs (m + 2) ∧
    round5 (measureEndD durs (m + 1)) = round5 (measureStartD durs (m + 2)) ∧
    ((∀ d ∈ durs, 0 < d) →
      measureStartD durs (m + 1) < measureStartD durs (m + 2)) := by
  have key : measureStartD durs (m + 2) = measureStartD durs (m + 1) + durs[m] := by
    simp only [measureStartD, Nat.add_sub_cancel]
    exact List.sum_take_succ durs m hm
  have hgetD : durs.getD m 2 = durs[m] := by
    rw [List.getD_eq_getElem?_getD, List.getElem?_eq_getElem hm]; rfl
  have keyE : measureEndD durs (m + 1) = measureStartD durs (m + 2) := by
    rw [measureEndD, key, Nat.add_sub_cancel, hgetD]
  refine ⟨keyE, by rw [keyE], fun hpos => ?_⟩
  rw [key]
  exact lt_add_of_pos_right _ (hpos _ (durs.getElem_mem hm))

/-- C7 (witness): the span equations on the concrete duration table
`[2, 3/2]`. -/
theorem measureSpan_prefix_sums_witness :
    measureEndD [2, 3/2] 1 = measureStartD [2, 3/2] 2 ∧
    round5 (measureEndD [2, 3/2] 1) = round5 (measureStartD [2, 3/2] 2) ∧
    ((∀ d ∈ ([2, 3/2] : List ℚ), 0 < d) →
      measureStartD [2, 3/2] 1 < measureStartD [2, 3/2] 2) :=
  measureSpan_prefix_sums [2, 3/2] 0 (by norm_num)

/-- C8: the normalized duration of a measure is a function of its parsed
(beats, beat-unit) pair alone and equals `(60/120) × beats × (4/beat-unit)`
whenever the beat-unit is nonzero; in particular a 4/4 measure normalizes to
2.0 and a 3/4 measure to 1.5. -/
theorem sigToDuration_normalized_duration (s : String) (b t : ℤ)
    (hs : parseSig s = some (b, t)) (ht : t ≠ 0) :
    sigToDuration (some s) = (60 / 120 : ℚ) * b * (4 / (t : ℚ)) ∧
    sigToDuration (some "4/4") = 2 ∧
    sigToDuration (some "3/4") = 3 / 2 := by
  refine ⟨?_, sigToDuration_44, ?_⟩
  · rw [sigToDuration_parse s b t hs, durOfPair, if_neg ht]
  · rw [sigToDuration_parse "3/4" 3 4 rfl]; norm_num [durOfPair]

/-- C8 (witness): the formula at the concrete signature 6/8. -/
theorem sigToDuration_normalized_duration_witness :
    sigToDuration (some "6/8") = (60 / 120 : ℚ) * (6 : ℤ) * (4 / ((8 : ℤ) : ℚ)) ∧
    sigToDuration (some "4/4") = 2 ∧
    sigToDuration (some "3/4") = 3 / 2 :=
  sigToDuration_normalized_duration "6/8" 6 8 rfl (by norm_num)

/-- C9: for every normalization function, every shuffled piece list (i.e.
every shuffle seed), every split size, and every force-test list, each piece
on the force-test list lands in the test partition and in neither the train
nor the validation partition. -/
theorem splitPieces_force_test (normpath : String → String)
    (shuffled force : List String) (nTrain nTest : ℕ) (p : String)
    (hp : p ∈ force) :
    p ∈ (splitPieces normpath shuffled force nTrain nTest).2.1 ∧
    p ∉ (splitPieces normpath shuffled force nTrain nTest).1 ∧
    p ∉ (splitPieces normpath shuffled force nTrain nTest).2.2 := by
  have hrem : p ∉ (splitPieces normpath shuffled force nTrain nTest).1 ∧
      p ∉ (splitPieces normpath shuffled force nTrain nTest).2.2 := by
    constructor
    · intro hmem
      have h1 : p ∈ shuffled.filter
          (fun q => decide (normpath q ∉ force.map normpath)) :=
        (List.take_sublist _ _).mem hmem
      have h2 := (List.mem_filter.mp h1).2
      simp only [decide_eq_true_eq] at h2
      exact h2 (List.mem_map_of_mem normpath hp)
    · intro hmem
      have h1 : p ∈ shuffled.filter
          (fun q => decide (normpath q ∉ force.map normpath)) :=
        (List.drop_sublist _ _).mem hmem
      have h2 := (List.mem_filter.mp h1).2
      simp only [decide_eq_true_eq] at h2
      exact h2 (List.mem_map_of_mem normpath hp)
  exact ⟨List.mem_append_left _ hp, hrem⟩

/-- C9 (witness): a forced piece lands in the test partition only, on a
concrete shuffled list. -/
theorem splitPieces_force_test_witness :
    ("Chopin/Barcarolle" ∈
      (splitPieces id ["a", "Chopin/Barcarolle", "b"] ["Chopin/Barcarolle"] 1 1).2.1) ∧
    ("Chopin/Barcarolle" ∉
      (splitPieces id ["a", "Chopin/Barcarolle", "b"] ["Chopin/Barcarolle"] 1 1).1) ∧
    ("Chopin/Barcarolle" ∉
      (splitPieces id ["a", "Chopin/Barcarolle", "b"] ["Chopin/Barcarolle"] 1 1).2.2) :=
  splitPieces_force_test id ["a", "Chopin/Barcarolle", "b"] ["Chopin/Barcarolle"] 1 1
    "Chopin/Barcarolle" (by simp)

/-- C10: `extract_notes` raises `ZeroDivisionError` instead of skipping when
a note lands in a zero-width measure: for the degenerate single-downbeat
sequence `[0.0]` (whose synthetic end time reuses duration 0.0) every note
with onset ≥ 0 triggers it, and for any downbeat sequence ending in two equal
boundary times every note at/after them triggers it. -/
theorem extractNotes_zero_duration_raises :
    (∀ (pitch : ℕ) (onset offset : ℚ) (ts : List (ℤ × String)), 0 ≤ onset →
        extractNotes [0] [[⟨pitch, onset, offset⟩]] ts = .error "ZeroDivisionError") ∧
    (∀ (l : List ℚ) (t : ℚ) (pitch : ℕ) (onset offset : ℚ) (ts : List (ℤ × String)),
        (∀ x ∈ l, x ≤ t) → t ≤ onset →
        extractNotes (l ++ [t, t]) [[⟨pitch, onset, offset⟩]] ts =
          .error "ZeroDivisionError") := by
  constructor
  · intro pitch onset offset ts h
    have hb : bisectRight [0] onset = 1 := by
      rw [bisectRight_eq_length [0] onset (by simpa using h)]
      rfl
    have hproc : processNote [0] (endTimes [0]) (sigDurList ts ([0] : List ℚ).length)
        ⟨pitch, onset, offset⟩ = .error "ZeroDivisionError" := by
      rw [processNote]
      simp only [hb]
      rw [if_neg one_ne_zero]
      rw [if_neg (by norm_num [endTimes])]
      rw [if_pos (by norm_num [endTimes, lastIntervalOf])]
    rw [extractNotes_ne_nil _ _ _ (List.cons_ne_nil _ _)]
    rw [show ([[⟨pitch, onset, offset⟩]] : List (List MidiNote)).flatten =
      [⟨pitch, onset, offset⟩] from by simp]
    rw [processNotes_error _ _ _ _ _ _ hproc]
    rfl
  · intro l t pitch onset offset ts hl ht
    have hall : ∀ d ∈ l ++ [t, t], d ≤ onset := by
      intro d hd
      rcases List.mem_append.mp hd with h | h
      · exact le_trans (hl d h) ht
      · rcases (by simpa using h : d = t ∨ d = t) with h' | h' <;> (subst h'; exact ht)
    have hlen : (l ++ [t, t]).length = l.length + 2 := by simp
    have hb : bisectRight (l ++ [t, t]) onset = l.length + 2 := by
      rw [bisectRight_eq_length _ _ hall, hlen]
    have hdelta : lastIntervalOf (l ++ [t, t]) = 0 := by
      rw [lastIntervalOf, show (l ++ [t, t]).reverse = t :: t :: l.reverse from by simp]
      exact sub_self t
    have hlast : (l ++ [t, t]).getLastD 0 = t := by
      rw [List.getLastD_eq_getLast?, show l ++ [t, t] = (l ++ [t]) ++ [t] from by simp,
        List.getLast?_concat]
      rfl
    have htail : (l ++ [t, t]).tail.length = l.length + 1 := by
      rw [List.length_tail, hlen]
      omega
    have hendlen : (endTimes (l ++ [t, t])).length = l.length + 2 := by
      rw [endTimes, List.length_append, htail]
      rfl
    have hstart : (l ++ [t, t]).getD (l.length + 1) 0 = t := by
      rw [List.getD_eq_getElem?_getD, List.getElem?_append_right (by omega)]
      simp
    have hend : (endTimes (l ++ [t, t])).getD (l.length + 1) 0 = t + 0 := by
      rw [endTimes, hlast, hdelta]
      rw [show l.length + 1 = (l ++ [t, t]).tail.length from htail.symm]
      exact getD_append_singleton _ _
    have hproc : processNote (l ++ [t, t]) (endTimes (l ++ [t, t]))
        (sigDurList ts (l ++ [t, t]).length) ⟨pitch, onset, offset⟩ =
        .error "ZeroDivisionError" := by
      rw [processNote]
      simp only [hb]
      simp only [show l.length + 2 - 1 = l.length + 1 from by omega]
      rw [if_neg (by omega)]
      rw [if_neg (by rw [hendlen]; omega)]
      rw [if_pos (by rw [hstart, hend]; ring)]
    rw [extractNotes_ne_nil _ _ _ (by simp)]
    rw [show ([[⟨pitch, onset, offset⟩]] : List (List MidiNote)).flatten =
      [⟨pitch, onset, offset⟩] from by simp]
    rw [processNotes_error _ _ _ _ _ _ hproc]
    rfl

/-- C10 (witness): the exception at the degenerate sequence `[0.0]` and at a
sequence whose last two boundaries coincide. -/
theorem extractNotes_zero_duration_raises_witness :
    extractNotes [0] [[⟨60, 0, 1⟩]] [] = .error "ZeroDivisionError" ∧
    extractNotes ([0] ++ [2, 2]) [[⟨60, 3, 4⟩]] [] = .error "ZeroDivisionError" :=
  ⟨extractNotes_zero_duration_raises.1 60 0 1 [] (le_refl 0),
   extractNotes_zero_duration_raises.2 [0] 2 60 3 4 [] (by norm_num) (by norm_num)⟩

end MIRLab
